import Mathlib

/-!
# Weighted Reciprocal Rank Fusion — verification of the rank-fusion orchestrator

The repository's notebook demonstrates an ensemble retriever that merges the
ranked lists of several retrieval backends with weighted Reciprocal Rank
Fusion (RRF).  The fusion engine itself is not part of the sources here, so
the engine, its data model and its configuration resolver are modelled from
the specification and verified against the behaviour recorded in the
notebook.
-/

namespace RRF

/-- An `Item`: an opaque content payload together with a metadata mapping.
Identity for fusion purposes defaults to exact content equality. -/
structure Item where
  content : String
  metadata : List (String × Int)
deriving DecidableEq, Repr

/-- Modelled from the spec: the contribution of a single backend (weight `w`,
RankedList `l`) to the fused score of item `x` under smoothing constant `k`
(§4.3, engine missing from the sources): an item at 0-based rank `r`
contributes `w / (k + r + 1)`; an item absent from the list contributes 0.
The rank of an item is the position of the first element with its content. -/
def backendContribution (k w : ℚ) (l : List Item) (x : Item) : ℚ :=
  match l.findIdx? (fun y => y.content == x.content) with
  | some r => w / (k + r + 1)
  | none => 0

/-- Modelled from the spec: the total fused score over (weight, RankedList)
pairs — the sum of the per-backend contributions (§4.3). -/
def rrfScorePairs (k : ℚ) : List (ℚ × List Item) → Item → ℚ
  | [], _ => 0
  | (w, l) :: ps, x => backendContribution k w l x + rrfScorePairs k ps x

/-- Modelled from the spec: the total fused score of an item, backends being
paired positionally with their weights (§4.3). -/
def rrfScore (k : ℚ) (ws : List ℚ) (lists : List (List Item)) (x : Item) : ℚ :=
  rrfScorePairs k (ws.zip lists) x

/-- The claim's reading of the fused score: a sum over every backend index
`b` of `w_b / (k + r + 1)` when backend `b`'s list contains the item at
0-based rank `r`, and 0 when it does not. -/
def rrfScoreSpec (k : ℚ) (ws : List ℚ) (lists : List (List Item)) (x : Item) : ℚ :=
  ∑ b ∈ Finset.range (min ws.length lists.length),
    match (lists.getD b []).findIdx? (fun y => y.content == x.content) with
    | some r => ws.getD b 0 / (k + r + 1)
    | none => 0

/-- Modelled from the spec: deduplication across backends by the identity
function (default: exact content equality), keeping the first-encountered
instance of each content (§3, §7); `seen` holds contents already emitted. -/
def dedupByContentAux (seen : List String) : List Item → List Item
  | [] => []
  | x :: xs =>
    if x.content ∈ seen then dedupByContentAux seen xs
    else x :: dedupByContentAux (x.content :: seen) xs

/-- Modelled from the spec: deduplicate a list of items by content, keeping
first occurrences in order of first appearance. -/
def dedupByContent (l : List Item) : List Item :=
  dedupByContentAux [] l

/-- The descending-score comparison used to sort fused results:
`scoreGE k ws lists a b` holds when `a`'s total score is at least `b`'s. -/
def scoreGE (k : ℚ) (ws : List ℚ) (lists : List (List Item)) (a b : Item) : Prop :=
  rrfScore k ws lists b ≤ rrfScore k ws lists a

instance (k : ℚ) (ws : List ℚ) (lists : List (List Item)) :
    DecidableRel (scoreGE k ws lists) := fun a b =>
  inferInstanceAs (Decidable (rrfScore k ws lists b ≤ rrfScore k ws lists a))

instance (k : ℚ) (ws : List ℚ) (lists : List (List Item)) :
    IsTotal Item (scoreGE k ws lists) :=
  ⟨fun a b => le_total (rrfScore k ws lists b) (rrfScore k ws lists a)⟩

instance (k : ℚ) (ws : List ℚ) (lists : List (List Item)) :
    IsTrans Item (scoreGE k ws lists) :=
  ⟨fun _ _ _ h₁ h₂ => le_trans h₂ h₁⟩

/-- Modelled from the spec: the Rank Fusion Engine (§4.3, missing from the
sources).  Deduplicate the concatenation of the backend lists by content and
stably sort by total contribution descending, so that ties retain the order
of first appearance across backends in configured order, then original rank. -/
def fuse (k : ℚ) (ws : List ℚ) (lists : List (List Item)) : List Item :=
  (dedupByContent lists.flatten).insertionSort (scoreGE k ws lists)

/-- The backend index and 0-based rank of the first appearance of content `c`
across the backends' ranked lists, taken in configured backend order. -/
def firstOcc (c : String) : List (List Item) → Option (Nat × Nat)
  | [] => none
  | l :: ls =>
    match l.findIdx? (fun y => y.content == c) with
    | some r => some (0, r)
    | none => (firstOcc c ls).map (fun p => (p.1 + 1, p.2))

/-- Modelled from the spec: a backend's persisted default configuration.
Concretely: a result-count limit `k` (the notebook's `search_kwargs` top-k)
and an offset into the underlying ranking, exercising the field-by-field
merge of §4.4. -/
structure BackendConfig where
  k : Nat
  offset : Nat
deriving DecidableEq, Repr

/-- Modelled from the spec: a call-scoped override for one backend; each
field optionally overrides the corresponding default field (§4.4). -/
structure ConfigOverride where
  k : Option Nat
  offset : Option Nat
deriving DecidableEq, Repr

/-- Modelled from the spec: the Runtime Configuration Resolver (§4.4):
effective configuration = persisted defaults overridden field-by-field by
the matching call-scoped entry, if any. -/
def resolveConfig (d : BackendConfig) (o : Option ConfigOverride) : BackendConfig :=
  match o with
  | none => d
  | some ov => { k := ov.k.getD d.k, offset := ov.offset.getD d.offset }

/-- Modelled from the spec: `CallConfig` — a mapping from backend identifier
to an opaque configuration override, constructed per invocation (§3). -/
abbrev CallConfig := List (String × ConfigOverride)

/-- Modelled from the spec: a Backend Adapter (§4.1): an identifier, the full
ranked list the underlying source produces for the query at hand, and the
persisted default configuration. -/
structure Backend where
  id : String
  ranking : List Item
  cfg : BackendConfig
deriving DecidableEq, Repr

/-- Modelled from the spec: `retrieve` returns the window of the backend's
ranking selected by the effective configuration (§4.1). -/
def Backend.retrieve (b : Backend) (c : BackendConfig) : List Item :=
  (b.ranking.drop c.offset).take c.k

/-- Modelled from the spec: the clearly-kinded error taxonomy of the
orchestrator's own validation (§7). -/
inductive FusionError where
  | configurationError (msg : String)
deriving DecidableEq, Repr

/-- Modelled from the spec: the fused retriever instance — ordered backends
(order defines tie-break precedence), their weights, and the smoothing
constant (default 60). -/
structure EnsembleRetriever where
  backends : List Backend
  weights : List ℚ
  smoothing : ℚ := 60

/-- Modelled from the spec: the Fan-Out Dispatcher (§4.2): invoke every
configured backend with its resolved effective configuration, preserving
the backend-to-RankedList association in configured order. -/
def dispatch (bs : List Backend) (cc : CallConfig) : List (List Item) :=
  bs.map (fun b => b.retrieve (resolveConfig b.cfg (cc.lookup b.id)))

/-- Modelled from the spec: the invocation interface (§6, §7): zero
registered backends, a weight count mismatch and all-zero weights fail with
a ConfigurationError; otherwise dispatch all backends and fuse. -/
def EnsembleRetriever.invoke (e : EnsembleRetriever) (cc : CallConfig) :
    Except FusionError (List Item) :=
  if e.backends.length = 0 then
    .error (.configurationError "zero backends registered")
  else if e.weights.length ≠ e.backends.length then
    .error (.configurationError "weight count mismatch")
  else if e.weights.all (fun w => w == 0) then
    .error (.configurationError "all weights zero")
  else
    .ok (fuse e.smoothing e.weights (dispatch e.backends cc))

/-- Modelled from the spec: an invocation never mutates the stored backend
defaults (§4.4, §9 — overrides are copy-on-use); the instance state after
the call is handed back alongside the result. -/
def EnsembleRetriever.invokeWithState (e : EnsembleRetriever) (cc : CallConfig) :
    Except FusionError (List Item) × EnsembleRetriever :=
  (e.invoke cc, e)

/-- Modelled from the spec: the Fan-Out Dispatcher joins on all backend
tasks and re-associates each result with its backend position, whatever the
completion order (§5); `arrivals` lists (backend position, RankedList)
pairs in completion order. -/
def collectArrivals (n : Nat) (arrivals : List (Nat × List Item)) : List (List Item) :=
  (List.range n).map (fun i => (arrivals.lookup i).getD [])

/-- Modelled from the spec: fusion applied to backend results delivered in
an arbitrary completion order (§5, §8). -/
def fuseFromArrivals (k : ℚ) (ws : List ℚ) (n : Nat)
    (arrivals : List (Nat × List Item)) : List Item :=
  fuse k ws (collectArrivals n arrivals)

/-! ## The canonical scenario of the notebook -/

/-- Canonical example: document 1 of backend A. -/
def docIa : Item := ⟨"I like apples", [("source", 1)]⟩

/-- Canonical example: document 2 of backend A. -/
def docIo : Item := ⟨"I like oranges", [("source", 1)]⟩

/-- Canonical example: document 3 of backend A. -/
def docAf : Item := ⟨"Apples and oranges are fruits", [("source", 1)]⟩

/-- Canonical example: document 1 of backend B. -/
def docYa : Item := ⟨"You like apples", [("source", 2)]⟩

/-- Canonical example: document 2 of backend B. -/
def docYo : Item := ⟨"You like oranges", [("source", 2)]⟩

/-- Backend A under the claim's literal reading: it returns its three
documents in corpus order. -/
def backendA : Backend := ⟨"bm25", [docIa, docIo, docAf], ⟨3, 0⟩⟩

/-- Backend A as actually exercised by the notebook: `bm25_retriever.k = 2`,
so its RankedList for the query "apples" is its top-2,
`["I like apples", "Apples and oranges are fruits"]`. -/
def backendA2 : Backend := ⟨"bm25", [docIa, docAf], ⟨2, 0⟩⟩

/-- Backend B: the FAISS retriever with `search_kwargs={"k": 2}` returns
`["You like apples", "You like oranges"]`. -/
def backendB : Backend := ⟨"faiss", [docYa, docYo], ⟨2, 0⟩⟩

/-- The ensemble of the claim's literal scenario, equal weights 0.5/0.5. -/
def ensembleAB : EnsembleRetriever := ⟨[backendA, backendB], [1/2, 1/2], 60⟩

/-- The ensemble of the notebook's recorded run, equal weights 0.5/0.5. -/
def ensembleAB2 : EnsembleRetriever := ⟨[backendA2, backendB], [1/2, 1/2], 60⟩

/-- The per-call override of the notebook's runtime-configuration cell:
limit the backend with identifier "faiss" to its top-1 result. -/
def faissTop1 : CallConfig := [("faiss", ⟨some 1, none⟩)]

end RRF

namespace RRF

/-! ## Properties of deduplication -/

theorem mem_of_mem_dedupByContentAux {seen : List String} {l : List Item} {y : Item}
    (h : y ∈ dedupByContentAux seen l) : y ∈ l ∧ y.content ∉ seen := by
  induction l generalizing seen with
  | nil => simp [dedupByContentAux] at h
  | cons x xs ih =>
    rw [dedupByContentAux] at h
    by_cases hx : x.content ∈ seen
    · rw [if_pos hx] at h
      obtain ⟨h₁, h₂⟩ := ih h
      exact ⟨List.mem_cons_of_mem _ h₁, h₂⟩
    · rw [if_neg hx] at h
      rcases List.mem_cons.mp h with rfl | h
      · exact ⟨List.mem_cons_self _ _, hx⟩
      · obtain ⟨h₁, h₂⟩ := ih h
        exact ⟨List.mem_cons_of_mem _ h₁, fun hc => h₂ (List.mem_cons_of_mem _ hc)⟩

theorem dedupByContentAux_sublist (seen : List String) (l : List Item) :
    List.Sublist (dedupByContentAux seen l) l := by
  induction l generalizing seen with
  | nil => simp [dedupByContentAux]
  | cons x xs ih =>
    rw [dedupByContentAux]
    by_cases hx : x.content ∈ seen
    · rw [if_pos hx]
      exact (ih seen).cons x
    · rw [if_neg hx]
      exact (ih (x.content :: seen)).cons₂ x

theorem find?_of_mem_dedupByContentAux {seen : List String} {l : List Item} {y : Item}
    (h : y ∈ dedupByContentAux seen l) :
    l.find? (fun z => z.content == y.content) = some y := by
  induction l generalizing seen with
  | nil => simp [dedupByContentAux] at h
  | cons x xs ih =>
    rw [dedupByContentAux] at h
    by_cases hx : x.content ∈ seen
    · rw [if_pos hx] at h
      have hy := (mem_of_mem_dedupByContentAux h).2
      have hne : (x.content == y.content) = false := by
        simp only [beq_eq_false_iff_ne, ne_eq]
        intro he
        exact hy (he ▸ hx)
      rw [List.find?_cons_of_neg _ (by simp [hne]), ih h]
    · rw [if_neg hx] at h
      rcases List.mem_cons.mp h with rfl | h
      · rw [List.find?_cons_of_pos _ (by simp)]
      · have hy := (mem_of_mem_dedupByContentAux h).2
        have hne : (x.content == y.content) = false := by
          simp only [beq_eq_false_iff_ne, ne_eq]
          intro he
          exact hy (he ▸ List.mem_cons_self _ _)
        rw [List.find?_cons_of_neg _ (by simp [hne]), ih h]

theorem exists_mem_dedupByContentAux {seen : List String} {l : List Item} {x : Item}
    (hx : x ∈ l) (hs : x.content ∉ seen) :
    ∃ y ∈ dedupByContentAux seen l, y.content = x.content := by
  induction l generalizing seen with
  | nil => simp at hx
  | cons z zs ih =>
    rw [dedupByContentAux]
    by_cases hz : z.content ∈ seen
    · rw [if_pos hz]
      rcases List.mem_cons.mp hx with h | hx'
      · exact absurd (h ▸ hz) hs
      · exact ih hx' hs
    · rw [if_neg hz]
      rcases List.mem_cons.mp hx with h | hx'
      · exact ⟨z, List.mem_cons_self _ _, by rw [h]⟩
      · by_cases hc : x.content = z.content
        · exact ⟨z, List.mem_cons_self _ _, hc.symm⟩
        · obtain ⟨y, hy, he⟩ :=
            ih hx' (fun hmem => (List.mem_cons.mp hmem).elim hc hs)
          exact ⟨y, List.mem_cons_of_mem _ hy, he⟩

theorem nodup_contents_dedupByContentAux (seen : List String) (l : List Item) :
    ((dedupByContentAux seen l).map Item.content).Nodup := by
  induction l generalizing seen with
  | nil => simp [dedupByContentAux]
  | cons x xs ih =>
    rw [dedupByContentAux]
    by_cases hx : x.content ∈ seen
    · rw [if_pos hx]
      exact ih seen
    · rw [if_neg hx]
      simp only [List.map_cons, List.nodup_cons]
      refine ⟨?_, ih (x.content :: seen)⟩
      intro hc
      obtain ⟨y, hy, he⟩ := List.mem_map.mp hc
      have := (mem_of_mem_dedupByContentAux hy).2
      exact this (he ▸ List.mem_cons_self _ _)

theorem pair_sublist_dedupByContentAux {seen : List String} {l : List Item} {a b : Item}
    (ha : a ∈ dedupByContentAux seen l) (hb : b ∈ dedupByContentAux seen l)
    (hab : l.findIdx (fun y => y.content == a.content) <
      l.findIdx (fun y => y.content == b.content)) :
    List.Sublist [a, b] (dedupByContentAux seen l) := by
  induction l generalizing seen with
  | nil => simp [dedupByContentAux] at ha
  | cons x xs ih =>
    rw [dedupByContentAux] at ha hb ⊢
    by_cases hx : x.content ∈ seen
    · rw [if_pos hx] at ha hb ⊢
      have hna : (x.content == a.content) = false := by
        simp only [beq_eq_false_iff_ne, ne_eq]
        intro he
        exact (mem_of_mem_dedupByContentAux ha).2 (he ▸ hx)
      have hnb : (x.content == b.content) = false := by
        simp only [beq_eq_false_iff_ne, ne_eq]
        intro he
        exact (mem_of_mem_dedupByContentAux hb).2 (he ▸ hx)
      simp only [List.findIdx_cons, hna, hnb, cond_false] at hab
      exact ih ha hb (Nat.lt_of_succ_lt_succ hab)
    · rw [if_neg hx] at ha hb ⊢
      rcases List.mem_cons.mp hb with h | hb'
      · exfalso
        rw [h] at hab
        simp only [List.findIdx_cons, beq_self_eq_true, cond_true] at hab
        exact Nat.not_lt_zero _ hab
      · rcases List.mem_cons.mp ha with h | ha'
        · rw [h]
          exact (List.singleton_sublist.mpr hb').cons₂ _
        · have hna : (x.content == a.content) = false := by
            simp only [beq_eq_false_iff_ne, ne_eq]
            intro he
            exact (mem_of_mem_dedupByContentAux ha').2
              (he ▸ List.mem_cons_self _ _)
          have hnb : (x.content == b.content) = false := by
            simp only [beq_eq_false_iff_ne, ne_eq]
            intro he
            exact (mem_of_mem_dedupByContentAux hb').2
              (he ▸ List.mem_cons_self _ _)
          simp only [List.findIdx_cons, hna, hnb, cond_false] at hab
          exact (ih ha' hb' (Nat.lt_of_succ_lt_succ hab)).cons x

/-! ## First appearance across backends versus position in the flattened list -/

theorem flatten_findIdx_lt_of_firstOcc {lists : List (List Item)} {c c' : String}
    {p q : Nat × Nat} (hp : firstOcc c lists = some p) (hq : firstOcc c' lists = some q)
    (hpq : p.1 < q.1 ∨ (p.1 = q.1 ∧ p.2 < q.2)) :
    lists.flatten.findIdx (fun y => y.content == c) <
      lists.flatten.findIdx (fun y => y.content == c') := by
  induction lists generalizing p q with
  | nil => simp [firstOcc] at hp
  | cons l ls ih =>
    rw [firstOcc] at hp hq
    rw [List.flatten_cons]
    rcases hfc : l.findIdx? (fun y => y.content == c) with _ | r
    all_goals rcases hfc' : l.findIdx? (fun y => y.content == c') with _ | r'
    · -- neither content occurs in the head list
      rw [hfc] at hp
      rw [hfc'] at hq
      obtain ⟨p₀, hp₀, hpe⟩ := Option.map_eq_some'.mp hp
      obtain ⟨q₀, hq₀, hqe⟩ := Option.map_eq_some'.mp hq
      have hl : l.findIdx (fun y => y.content == c) = l.length :=
        List.findIdx?_eq_none_iff_findIdx_eq.mp hfc
      have hl' : l.findIdx (fun y => y.content == c') = l.length :=
        List.findIdx?_eq_none_iff_findIdx_eq.mp hfc'
      rw [List.findIdx_append, List.findIdx_append, hl, hl',
        if_neg (lt_irrefl l.length), if_neg (lt_irrefl l.length)]
      have : p₀.1 < q₀.1 ∨ (p₀.1 = q₀.1 ∧ p₀.2 < q₀.2) := by
        rcases hpq with h | ⟨h₁, h₂⟩
        · left
          rw [← hpe, ← hqe] at h
          exact Nat.lt_of_succ_lt_succ h
        · right
          rw [← hpe, ← hqe] at h₁ h₂
          exact ⟨Nat.succ_injective h₁, h₂⟩
      exact Nat.add_lt_add_right (ih hp₀ hq₀ this) l.length
    · -- only `c'` occurs in the head list: contradiction with the order
      rw [hfc] at hp
      rw [hfc'] at hq
      obtain ⟨p₀, _, hpe⟩ := Option.map_eq_some'.mp hp
      have hq0 : q = (0, r') := by
        exact (Option.some_inj.mp hq).symm
      exfalso
      rcases hpq with h | ⟨h₁, _⟩
      · rw [← hpe, hq0] at h
        exact Nat.not_succ_lt_self (Nat.lt_of_lt_of_le h (Nat.zero_le _))
      · rw [← hpe, hq0] at h₁
        exact Nat.succ_ne_zero _ h₁
    · -- only `c` occurs in the head list
      rw [hfc] at hp
      rw [hfc'] at hq
      have hp0 : p = (0, r) := (Option.some_inj.mp hp).symm
      obtain ⟨h₁, h₂⟩ := List.findIdx?_eq_some_iff_findIdx_eq.mp hfc
      have hl' : l.findIdx (fun y => y.content == c') = l.length :=
        List.findIdx?_eq_none_iff_findIdx_eq.mp hfc'
      rw [List.findIdx_append, List.findIdx_append, h₂, hl',
        if_pos (h₂ ▸ h₁), if_neg (lt_irrefl l.length)]
      exact Nat.lt_of_lt_of_le (h₂ ▸ h₁) (Nat.le_add_left _ _)
    · -- both contents occur in the head list
      rw [hfc] at hp
      rw [hfc'] at hq
      have hp0 : p = (0, r) := (Option.some_inj.mp hp).symm
      have hq0 : q = (0, r') := (Option.some_inj.mp hq).symm
      have hrr : r < r' := by
        rcases hpq with h | ⟨_, h₂⟩
        · rw [hp0, hq0] at h
          exact absurd h (Nat.not_lt_zero 0).elim
        · rw [hp0, hq0] at h₂
          exact h₂
      obtain ⟨ha₁, ha₂⟩ := List.findIdx?_eq_some_iff_findIdx_eq.mp hfc
      obtain ⟨hb₁, hb₂⟩ := List.findIdx?_eq_some_iff_findIdx_eq.mp hfc'
      rw [List.findIdx_append, List.findIdx_append, ha₂, hb₂,
        if_pos (ha₂ ▸ ha₁), if_pos (hb₂ ▸ hb₁)]
      exact hrr

/-! ## Score lemmas -/

theorem backendContribution_zero_weight (k : ℚ) (l : List Item) (x : Item) :
    backendContribution k 0 l x = 0 := by
  unfold backendContribution
  rcases h : l.findIdx? (fun y => y.content == x.content) with _ | r <;> simp [h]

theorem backendContribution_of_not_mem {l : List Item} {x : Item} (k w : ℚ)
    (h : x.content ∉ l.map Item.content) : backendContribution k w l x = 0 := by
  rw [backendContribution]
  have : l.findIdx? (fun y => y.content == x.content) = none := by
    rw [List.findIdx?_eq_none_iff]
    intro y hy
    simp only [beq_eq_false_iff_ne, ne_eq]
    intro he
    exact h (he ▸ List.mem_map_of_mem Item.content hy)
  rw [this]

theorem rrfScore_set_zero (k : ℚ) (x : Item) :
    ∀ (i : Nat) (ws : List ℚ) (lists : List (List Item)),
      i < ws.length → i < lists.length →
      rrfScore k (ws.set i 0) lists x =
        rrfScore k (ws.eraseIdx i) (lists.eraseIdx i) x
  | _, [], _, hi, _ => absurd hi (Nat.not_lt_zero _)
  | _, _ :: _, [], _, hl => absurd hl (Nat.not_lt_zero _)
  | 0, w :: ws, l :: ls, _, _ => by
    show rrfScorePairs k ((0 :: ws).zip (l :: ls)) x = rrfScorePairs k (ws.zip ls) x
    rw [List.zip_cons_cons, rrfScorePairs, backendContribution_zero_weight, zero_add]
  | i + 1, w :: ws, l :: ls, hi, hl => by
    show rrfScorePairs k ((w :: ws.set i 0).zip (l :: ls)) x =
      rrfScorePairs k ((w :: ws.eraseIdx i).zip (l :: ls.eraseIdx i)) x
    rw [List.zip_cons_cons, List.zip_cons_cons, rrfScorePairs, rrfScorePairs]
    exact congrArg (backendContribution k w l x + ·)
      (rrfScore_set_zero k x i ws ls (Nat.lt_of_succ_lt_succ hi)
        (Nat.lt_of_succ_lt_succ hl))

theorem rrfScorePairs_eq_zero {ps : List (ℚ × List Item)} {x : Item} (k : ℚ)
    (h : ∀ pr ∈ ps, x.content ∉ pr.2.map Item.content) :
    rrfScorePairs k ps x = 0 := by
  induction ps with
  | nil => rfl
  | cons pr ps ih =>
    obtain ⟨w, l⟩ := pr
    rw [rrfScorePairs,
      backendContribution_of_not_mem k w (h ⟨w, l⟩ (List.mem_cons_self _ _)),
      ih (fun pr hpr => h pr (List.mem_cons_of_mem _ hpr)), add_zero]

theorem rrfScoreSpec_cons (k : ℚ) (x : Item) (w : ℚ) (ws : List ℚ)
    (l : List Item) (ls : List (List Item)) :
    rrfScoreSpec k (w :: ws) (l :: ls) x =
      backendContribution k w l x + rrfScoreSpec k ws ls x := by
  unfold rrfScoreSpec
  rw [List.length_cons, List.length_cons, Nat.succ_min_succ, Finset.sum_range_succ',
    add_comm]
  exact congrArg (backendContribution k w l x + ·)
    (Finset.sum_congr rfl (fun i _ => rfl))

theorem rrfScore_eq_rrfScoreSpec (k : ℚ) (x : Item) :
    ∀ (ws : List ℚ) (lists : List (List Item)),
      rrfScore k ws lists x = rrfScoreSpec k ws lists x
  | [], lists => by
    simp [rrfScore, rrfScoreSpec, rrfScorePairs]
  | w :: ws, [] => by
    simp [rrfScore, rrfScoreSpec, rrfScorePairs]
  | w :: ws, l :: ls => by
    rw [rrfScoreSpec_cons, ← rrfScore_eq_rrfScoreSpec k x ws ls]
    show rrfScorePairs k ((w, l) :: ws.zip ls) x = _
    rw [rrfScorePairs]
    rfl

/-! ## Association lists are insensitive to arrival order -/

theorem lookup_eq_of_perm {β : Type _} {l₁ l₂ : List (Nat × β)} (h : l₁.Perm l₂) :
    (l₁.map Prod.fst).Nodup → ∀ a : Nat, l₁.lookup a = l₂.lookup a := by
  induction h with
  | nil => exact fun _ _ => rfl
  | cons x h ih =>
    intro nd a
    obtain ⟨key, v⟩ := x
    have nd' : (List.map Prod.fst _).Nodup := (List.nodup_cons.mp (by simpa using nd)).2
    cases hk : a == key
    · simp only [List.lookup, hk]
      exact ih nd' a
    · simp only [List.lookup, hk]
  | swap x y l =>
    intro nd a
    obtain ⟨ky, vy⟩ := y
    obtain ⟨kx, vx⟩ := x
    have hne : ky ≠ kx := by
      simp only [List.map_cons, List.nodup_cons, List.mem_cons, not_or] at nd
      exact nd.1.1
    cases hky : a == ky <;> cases hkx : a == kx <;>
      simp only [List.lookup, hky, hkx]
    exact absurd ((eq_of_beq hky).symm.trans (eq_of_beq hkx)) hne
  | trans h₁ h₂ ih₁ ih₂ =>
    intro nd a
    exact (ih₁ nd a).trans (ih₂ ((h₁.map Prod.fst).nodup nd) a)

/-! ## The claims -/

/-- C1: for every set of ranked lists and weights, the fused score of each
deduplicated item is the sum, over every backend whose list contains the
item, of `w_b / (k + r + 1)` with `r` the item's 0-based rank in that
backend's list, and the fused output is the deduplicated items sorted by
this total score in descending order. -/
theorem rrf_fused_score_and_descending_order (k : ℚ) (ws : List ℚ)
    (lists : List (List Item)) :
    (∀ x : Item, rrfScore k ws lists x = rrfScoreSpec k ws lists x) ∧
    (fuse k ws lists).Pairwise
      (fun a b => rrfScore k ws lists b ≤ rrfScore k ws lists a) ∧
    (fuse k ws lists).Perm (dedupByContent lists.flatten) :=
  ⟨fun x => rrfScore_eq_rrfScoreSpec k x ws lists,
    List.sorted_insertionSort (scoreGE k ws lists) (dedupByContent lists.flatten),
    List.perm_insertionSort (scoreGE k ws lists) (dedupByContent lists.flatten)⟩

/-- C2: the fused output is a permutation of the deduplicated union of the
input items — nothing invented, nothing lost, nothing repeated under the
identity function. -/
theorem fuse_is_permutation_of_dedup_union (k : ℚ) (ws : List ℚ)
    (lists : List (List Item)) :
    (fuse k ws lists).Perm (dedupByContent lists.flatten) ∧
    (∀ x ∈ fuse k ws lists, x ∈ lists.flatten) ∧
    (∀ x ∈ lists.flatten, ∃ y ∈ fuse k ws lists, y.content = x.content) ∧
    ((fuse k ws lists).map Item.content).Nodup := by
  refine ⟨List.perm_insertionSort _ _, ?_, ?_, ?_⟩
  · intro x hx
    exact (mem_of_mem_dedupByContentAux ((List.mem_insertionSort _).mp hx)).1
  · intro x hx
    obtain ⟨y, hy, he⟩ := exists_mem_dedupByContentAux hx (List.not_mem_nil _)
    exact ⟨y, (List.mem_insertionSort _).mpr hy, he⟩
  · exact ((List.perm_insertionSort _ _).map Item.content).symm.nodup
      (nodup_contents_dedupByContentAux [] lists.flatten)

unseal Rat.add Rat.mul Rat.inv Rat.sub in
/-- C3 (counterexample): in the claim's literal scenario, backend A returns
all three of its documents, and then the fused order is
`[Ia, Ya, Io, Yo, Af]` — "You like oranges" ranks strictly ahead of
"Apples and oranges are fruits", contradicting the claimed order. -/
theorem canonical_scenario_counterexample :
    ensembleAB.invoke [] = .ok [docIa, docYa, docIo, docYo, docAf] ∧
    [docIa, docYa, docIo, docYo, docAf].indexOf docYo <
      [docIa, docYa, docIo, docYo, docAf].indexOf docAf ∧
    ¬ ([docIa, docYa, docIo, docYo, docAf].indexOf docAf <
        [docIa, docYa, docIo, docYo, docAf].indexOf docYo) :=
  ⟨by rfl, by decide, by decide⟩

unseal Rat.add Rat.mul Rat.inv Rat.sub in
/-- C3 (amended): in the canonical scenario as actually run by the notebook —
each backend returns its configured top-2 list for the query "apples", so
backend A's RankedList is `[Ia, Af]` and backend B's is `[Ya, Yo]` — the
fused output is `[Ia, Ya, Af, Yo]`: "I like apples" and "You like apples"
rank ahead of "Apples and oranges are fruits", which ranks ahead of
"You like oranges". -/
theorem canonical_scenario_amended :
    ensembleAB2.invoke [] = .ok [docIa, docYa, docAf, docYo] ∧
    [docIa, docYa, docAf, docYo].indexOf docIa <
      [docIa, docYa, docAf, docYo].indexOf docAf ∧
    [docIa, docYa, docAf, docYo].indexOf docYa <
      [docIa, docYa, docAf, docYo].indexOf docAf ∧
    [docIa, docYa, docAf, docYo].indexOf docAf <
      [docIa, docYa, docAf, docYo].indexOf docYo :=
  ⟨by rfl, by decide, by decide, by decide⟩

unseal Rat.add Rat.mul Rat.inv Rat.sub in
/-- C4: invoking the canonical scenario with the per-call override limiting
backend "faiss" to its top-1 result yields a fused list omitting
"You like oranges" entirely, while backend A's dispatched list — and hence
its per-item contribution — is identical to the unoverridden call's, and
every backend-A item still appears in the fused output. -/
theorem per_call_truncation_override :
    ensembleAB.invoke faissTop1 = .ok [docIa, docYa, docIo, docAf] ∧
    docYo ∉ [docIa, docYa, docIo, docAf] ∧
    dispatch ensembleAB.backends faissTop1 = [[docIa, docIo, docAf], [docYa]] ∧
    dispatch ensembleAB.backends [] = [[docIa, docIo, docAf], [docYa, docYo]] ∧
    (∀ x ∈ backendA.ranking, x ∈ [docIa, docYa, docIo, docAf]) ∧
    (∀ x : Item,
      backendContribution 60 (1/2)
          ((dispatch ensembleAB.backends faissTop1).getD 0 []) x =
        backendContribution 60 (1/2)
          ((dispatch ensembleAB.backends []).getD 0 []) x) :=
  ⟨by rfl, by decide, by rfl, by rfl, by decide, fun _ => rfl⟩

/-- C5: fusion is deterministic — the fused output computed from backend
results delivered in any completion order equals the output computed from
any other completion order of the same per-backend results; with fixed
ranked lists, weights and tie-break the output is a function of those
alone. -/
theorem fusion_deterministic (k : ℚ) (ws : List ℚ) (n : Nat)
    (arrA arrB : List (Nat × List Item)) (hperm : arrA.Perm arrB)
    (hnd : (arrA.map Prod.fst).Nodup) :
    fuseFromArrivals k ws n arrA = fuseFromArrivals k ws n arrB := by
  unfold fuseFromArrivals collectArrivals
  exact congrArg (fuse k ws)
    (List.map_congr_left (fun i _ => by rw [lookup_eq_of_perm hperm hnd i]))

/-- C5 witness: two completion orders of the same two backend results fuse
identically. -/
theorem fusion_deterministic_witness :
    ([((0 : Nat), [docIa]), (1, [docYa])].map Prod.fst).Nodup ∧
    fuseFromArrivals 60 [1/2, 1/2] 2 [(0, [docIa]), (1, [docYa])] =
      fuseFromArrivals 60 [1/2, 1/2] 2 [(1, [docYa]), (0, [docIa])] :=
  ⟨by decide,
    fusion_deterministic 60 [1/2, 1/2] 2 _ _
      (List.Perm.swap (1, [docYa]) (0, [docIa]) []) (by decide)⟩

/-- C6: items with equal fused scores appear in the output in order of first
appearance — by the backend index of the first backend containing them (in
configured order), then by their rank within that backend. -/
theorem equal_score_tie_break (k : ℚ) (ws : List ℚ) (lists : List (List Item))
    (a b : Item) (p q : Nat × Nat)
    (ha : a ∈ fuse k ws lists) (hb : b ∈ fuse k ws lists)
    (hscore : rrfScore k ws lists a = rrfScore k ws lists b)
    (hp : firstOcc a.content lists = some p)
    (hq : firstOcc b.content lists = some q)
    (hpq : p.1 < q.1 ∨ (p.1 = q.1 ∧ p.2 < q.2)) :
    List.Sublist [a, b] (fuse k ws lists) := by
  have ha' := (List.mem_insertionSort _).mp ha
  have hb' := (List.mem_insertionSort _).mp hb
  have hd : List.Sublist [a, b] (dedupByContent lists.flatten) :=
    pair_sublist_dedupByContentAux ha' hb'
      (flatten_findIdx_lt_of_firstOcc hp hq hpq)
  exact List.pair_sublist_insertionSort (le_of_eq hscore.symm) hd

unseal Rat.add Rat.mul Rat.inv Rat.sub in
/-- C6 witness: in the amended canonical scenario, `docIa` and `docYa` tie at
score `1/122`; `docIa` first appears in backend 0 and `docYa` in backend 1,
so `docIa` precedes `docYa` in the fused output. -/
theorem equal_score_tie_break_witness :
    docIa ∈ fuse 60 [1/2, 1/2] [[docIa, docAf], [docYa, docYo]] ∧
    rrfScore 60 [1/2, 1/2] [[docIa, docAf], [docYa, docYo]] docIa =
      rrfScore 60 [1/2, 1/2] [[docIa, docAf], [docYa, docYo]] docYa ∧
    List.Sublist [docIa, docYa]
      (fuse 60 [1/2, 1/2] [[docIa, docAf], [docYa, docYo]]) :=
  ⟨by decide, by decide,
    equal_score_tie_break 60 [1/2, 1/2] [[docIa, docAf], [docYa, docYo]]
      docIa docYa (0, 0) (1, 0) (by decide) (by decide) (by decide)
      (by decide) (by decide) (by decide)⟩

/-- C7: zeroing a backend's weight is score-equivalent to removing the
backend: every item's fused score equals the score over the remaining
backends, and an item occurring in no other backend's list scores 0. -/
theorem zero_weight_backend_equivalence (k : ℚ) (ws : List ℚ)
    (lists : List (List Item)) (i : Nat)
    (hi : i < ws.length) (hl : i < lists.length) :
    (∀ x : Item, rrfScore k (ws.set i 0) lists x =
        rrfScore k (ws.eraseIdx i) (lists.eraseIdx i) x) ∧
    (∀ x : Item, (∀ l ∈ lists.eraseIdx i, x.content ∉ l.map Item.content) →
        rrfScore k (ws.set i 0) lists x = 0) := by
  refine ⟨fun x => rrfScore_set_zero k x i ws lists hi hl, fun x hx => ?_⟩
  rw [rrfScore_set_zero k x i ws lists hi hl]
  exact rrfScorePairs_eq_zero k (fun pr hpr => hx pr.2 (List.of_mem_zip hpr).2)

/-- C7 witness: in a two-backend instance, zeroing the first backend's
weight gives the same scores as dropping that backend. -/
theorem zero_weight_backend_equivalence_witness :
    0 < 2 ∧
    ((∀ x : Item, rrfScore 60 ([1/2, 1/2].set 0 0) [[docIa], [docYa]] x =
        rrfScore 60 ([1/2, 1/2].eraseIdx 0) ([[docIa], [docYa]].eraseIdx 0) x) ∧
     (∀ x : Item,
        (∀ l ∈ [[docIa], [docYa]].eraseIdx 0, x.content ∉ l.map Item.content) →
        rrfScore 60 ([1/2, 1/2].set 0 0) [[docIa], [docYa]] x = 0)) :=
  ⟨by decide,
    zero_weight_backend_equivalence 60 [1/2, 1/2] [[docIa], [docYa]] 0
      (by decide) (by decide)⟩

/-- C8: an invocation fails with a ConfigurationError exactly when zero
backends are registered, the weight count differs from the backend count,
or every weight is zero; otherwise it returns an ordered sequence. -/
theorem invoke_configuration_error_iff (e : EnsembleRetriever) (cc : CallConfig) :
    (∃ s, e.invoke cc = .error (.configurationError s)) ↔
      (e.backends = [] ∨ e.weights.length ≠ e.backends.length ∨
        ∀ w ∈ e.weights, w = 0) := by
  unfold EnsembleRetriever.invoke
  by_cases h1 : e.backends.length = 0
  · rw [if_pos h1]
    rw [List.length_eq_zero] at h1
    simp [h1]
  · rw [if_neg h1]
    by_cases h2 : e.weights.length ≠ e.backends.length
    · rw [if_pos h2]
      simp [h2]
    · rw [if_neg h2]
      by_cases h3 : e.weights.all (fun w => w == 0) = true
      · rw [if_pos h3]
        have hz : ∀ w ∈ e.weights, w = 0 := by simpa using h3
        exact iff_of_true ⟨_, rfl⟩ (Or.inr (Or.inr hz))
      · rw [if_neg h3]
        apply iff_of_false
        · rintro ⟨s, hs⟩
          simp at hs
        · rintro (hb | hw | hz)
          · exact h1 (by rw [hb]; rfl)
          · exact h2 hw
          · exact h3 (by simpa using hz)

/-- C9: the effective configuration of each backend during a call is its
stored defaults overridden field-by-field by the matching CallConfig entry,
and the call leaves the stored defaults unchanged: the a-posteriori instance
state equals the original, so any subsequent invocation behaves exactly as
an invocation on the original instance. -/
theorem call_config_resolution_and_isolation (e : EnsembleRetriever)
    (cc cc' : CallConfig) (d : BackendConfig) (ov : ConfigOverride) :
    ((e.invokeWithState cc).1 = e.invoke cc ∧
     dispatch e.backends cc =
       e.backends.map (fun b => b.retrieve (resolveConfig b.cfg (cc.lookup b.id)))) ∧
    ((resolveConfig d (some ov)).k = ov.k.getD d.k ∧
     (resolveConfig d (some ov)).offset = ov.offset.getD d.offset ∧
     resolveConfig d none = d) ∧
    (e.invokeWithState cc).2 = e ∧
    (((e.invokeWithState cc).2).invokeWithState cc').1 = (e.invokeWithState cc').1 :=
  ⟨⟨rfl, rfl⟩, ⟨rfl, rfl, rfl⟩, rfl, rfl⟩

/-- C10: every fused output item is one of the input items — content payload
and metadata mapping unchanged, no score attached — and it is the
first-encountered input instance bearing its content. -/
theorem fused_items_unchanged (k : ℚ) (ws : List ℚ) (lists : List (List Item)) :
    ∀ x ∈ fuse k ws lists, x ∈ lists.flatten ∧
      lists.flatten.find? (fun y => y.content == x.content) = some x := by
  intro x hx
  have hx' := (List.mem_insertionSort _).mp hx
  exact ⟨(mem_of_mem_dedupByContentAux hx').1, find?_of_mem_dedupByContentAux hx'⟩

unseal Rat.add Rat.mul Rat.inv Rat.sub in
/-- C10 witness: in the amended canonical scenario, the top fused item is the
original `docIa` instance with its metadata. -/
theorem fused_items_unchanged_witness :
    docIa ∈ fuse 60 [1/2, 1/2] [[docIa, docAf], [docYa, docYo]] ∧
    (docIa ∈ [[docIa, docAf], [docYa, docYo]].flatten ∧
      [[docIa, docAf], [docYa, docYo]].flatten.find?
        (fun y => y.content == docIa.content) = some docIa) :=
  ⟨by decide,
    fused_items_unchanged 60 [1/2, 1/2] [[docIa, docAf], [docYa, docYo]]
      docIa (by decide)⟩

end RRF
